import Mathlib

/-!
Verification of the PrivateMessage zero-width steganography codec.

JavaScript strings are modelled as lists of UTF-16 code units: values of
type Nat, each below 65536.  The definitions below are shallow embeddings
of the functions of src/src/App.tsx (primary, PIN-protected profile with
sentinel markers and interleave splice) and of src/unnamed/part_000 (the
legacy append profile), translated code-unit for code-unit.
-/

/-- ZERO-MARK of the primary profile: U+200C, zero width non joiner. -/
def ZW_ZERO : Nat := 8204

/-- ONE-MARK of the primary profile: U+200D, zero width joiner. -/
def ZW_ONE : Nat := 8205

/-- START-MARK: U+2060, word joiner. -/
def ZW_START : Nat := 8288

/-- END-MARK: U+FEFF, zero width no-break space. -/
def ZW_END : Nat := 65279

/-- ZERO-MARK of the legacy append profile: U+200B, zero width space. -/
def ZW_ZERO_A : Nat := 8203

/-- ONE-MARK of the legacy append profile: U+200C. -/
def ZW_ONE_A : Nat := 8204

/-- Whether a code unit is a UTF-16 high surrogate (0xD800 to 0xDBFF). -/
def isHighSurrogate (u : Nat) : Bool := 55296 ≤ u && u ≤ 56319

/-- Whether a code unit is a UTF-16 low surrogate (0xDC00 to 0xDFFF). -/
def isLowSurrogate (u : Nat) : Bool := 56320 ≤ u && u ≤ 57343

/-- The code units that Array.from combined with charCodeAt of index 0
delivers: the JavaScript string iterator walks code points, merging a
high surrogate followed by a low surrogate into one element, and
charCodeAt of index 0 keeps only the first code unit of each element. -/
def iterFirsts : List Nat → List Nat
  | [] => []
  | [u] => [u]
  | u :: l :: rest =>
    if isHighSurrogate u && isLowSurrogate l then u :: iterFirsts rest
    else u :: iterFirsts (l :: rest)

/-- The low w bits of n, most significant bit first.  For a code unit n
(always below 65536, as charCodeAt guarantees), bitsOf 16 n is exactly
the result of toString base 2 padded with padStart 16. -/
def bitsOf : Nat → Nat → List Bool
  | 0, _ => []
  | w + 1, n => decide (n / 2 ^ w % 2 = 1) :: bitsOf w n

/-- One 16-bit group, most significant bit first. -/
def bits16 (n : Nat) : List Bool := bitsOf 16 n

/-- textToBinary of App.tsx: Array.from(text).map(char =>
charCodeAt(0).toString(2).padStart(16, zero)).join(). -/
def textToBinary (t : List Nat) : List Bool := (iterFirsts t).flatMap bits16

/-- parseInt with base 2 over a most-significant-bit-first bit list. -/
def bitsToNat (bs : List Bool) : Nat :=
  bs.foldl (fun acc b => 2 * acc + cond b 1 0) 0

/-- Fuelled worker for binaryToText; the fuel only bounds recursion and
is in excess, one unit per 16-bit slice. -/
def binaryToTextGo : Nat → List Bool → List Nat
  | 0, _ => []
  | fuel + 1, bs =>
    if bs.length < 16 then []
    else bitsToNat (bs.take 16) % 65536 :: binaryToTextGo fuel (bs.drop 16)

/-- binaryToText of App.tsx: slice the bit string into 16-bit groups,
push fromCharCode(parseInt(group, 2)) for each full group, silently
skipping a trailing group shorter than 16 bits.  fromCharCode applies
ToUint16, hence the modulus. -/
def binaryToText (bs : List Bool) : List Nat := binaryToTextGo bs.length bs

/-- The PIN validity test of the handlers: length 4 and digits only,
pin.length === 4 and the regex of one or more digits anchored. -/
def validPin (pin : List Nat) : Bool :=
  pin.length == 4 && pin.all fun c => 48 ≤ c && c ≤ 57

/-- The numeric value of a digit string; used as the key the cipher
model derives from the PIN.  Injective on valid PINs. -/
def pinVal (pin : List Nat) : Nat := pin.foldl (fun a c => a * 10 + (c - 48)) 0

/-- Whether a code unit is one of the 16 envelope alphabet characters,
the printable ASCII range 48 to 63. -/
def hexOk (c : Nat) : Bool := 48 ≤ c && c < 64

/-- A 16-bit value spelled as four envelope alphabet characters. -/
def toHex4 (v : Nat) : List Nat :=
  [48 + v / 4096 % 16, 48 + v / 256 % 16, 48 + v / 16 % 16, 48 + v % 16]

/-- Read back one group of four envelope alphabet characters. -/
def parse4 : List Nat → Option (Nat × List Nat)
  | c0 :: c1 :: c2 :: c3 :: rest =>
    if hexOk c0 && hexOk c1 && hexOk c2 && hexOk c3 then
      some ((c0 - 48) * 4096 + (c1 - 48) * 256 + (c2 - 48) * 16 + (c3 - 48), rest)
    else none
  | _ => none

/-- Undo a key-stream shift s on a 16-bit value. -/
def decShift (s v : Nat) : Nat := (v + (65536 - s % 65536)) % 65536

/-- Body of the cipher model: each plaintext code unit u at index i is
shifted by the key stream value k + i modulo 65536 and spelled with
toHex4. -/
def sealBody (k : Nat) : Nat → List Nat → List Nat
  | _, [] => []
  | i, u :: rest => toHex4 ((u + (k + i)) % 65536) ++ sealBody k (i + 1) rest

/-- Inverse of sealBody: read groups of four envelope characters and
undo the key stream; any malformed group fails the whole parse. -/
def parseBody (k : Nat) : Nat → List Nat → Option (List Nat)
  | _, [] => some []
  | i, c0 :: c1 :: c2 :: c3 :: rest =>
    if hexOk c0 && hexOk c1 && hexOk c2 && hexOk c3 then
      (parseBody k (i + 1) rest).map
        (decShift (k + i)
          ((c0 - 48) * 4096 + (c1 - 48) * 256 + (c2 - 48) * 16 + (c3 - 48)) :: ·)
    else none
  | _, _ => none

/-- Modelled from the spec: CryptoJS.AES.encrypt is an external library
call, not part of the repository sources; section 4.2 of the spec asks
for a deterministic seal keyed by the pin whose output is self-contained
and representable as plain Unicode text, using an authenticated or at
least integrity-checkable symmetric scheme.  The model is a
key-commitment tag (the key derived from the pin, spelled with toHex4)
followed by the key-stream-shifted code units of the message, all drawn
from a printable 16-character alphabet. -/
def CryptoJS.AES.encrypt (message pin : List Nat) : List Nat :=
  toHex4 (pinVal pin) ++ sealBody (pinVal pin) 0 message

/-- Modelled from the spec: CryptoJS.AES.decrypt, the inverse of the
seal model above; it positively detects a wrong key or a corrupted
envelope by checking the key-commitment tag and the envelope alphabet,
reporting failure as none. -/
def CryptoJS.AES.decrypt (envelope pin : List Nat) : Option (List Nat) :=
  match parse4 envelope with
  | none => none
  | some (tag, rest) =>
    if tag = pinVal pin then parseBody (pinVal pin) 0 rest else none

/-- The typed failure taxonomy of section 7 of the spec, as surfaced by
the two handlers through setError. -/
inductive StegoError where
  | MissingInput
  | InvalidKey
  | NotFound
  | EmptyPayload
  | WrongKeyOrCorrupt
deriving DecidableEq

/-- A handler either produces a result string or one typed failure. -/
inductive StegoOut (α : Type) where
  | ok : α → StegoOut α
  | err : StegoError → StegoOut α
deriving DecidableEq

/-- The bit-to-marker map of handleEncrypt: a zero bit becomes ZW_ZERO,
a one bit becomes ZW_ONE. -/
def bitChar (b : Bool) : Nat := if b then ZW_ONE else ZW_ZERO

/-- The sentinel-wrapped marker run: ZW_START, then one marker character
per bit, then ZW_END. -/
def markerRun (bits : List Bool) : List Nat :=
  ZW_START :: bits.map bitChar ++ [ZW_END]

/-- The interleave-after-first-char splice of handleEncrypt: the ternary
coverText.length greater than zero, then coverText at 0 plus hidden plus
coverText.slice(1), else hidden alone. -/
def splice (cover run : List Nat) : List Nat :=
  match cover with
  | [] => run
  | c :: ct => c :: (run ++ ct)

/-- handleEncrypt of App.tsx, primary profile: reject an empty secret or
an empty cover as missing input and a malformed PIN as an invalid key,
then seal, bit-encode, wrap in sentinels and splice into the cover. -/
def handleEncrypt (secretMessage coverText encryptPin : List Nat) : StegoOut (List Nat) :=
  if secretMessage.isEmpty then .err .MissingInput
  else if coverText.isEmpty then .err .MissingInput
  else if !validPin encryptPin then .err .InvalidKey
  else .ok (splice coverText
    (markerRun (textToBinary (CryptoJS.AES.encrypt secretMessage encryptPin))))

/-- indexOf over code units: the position of the first occurrence. -/
def idxOf : List Nat → Nat → Option Nat
  | [], _ => none
  | c :: rest, x => if c = x then some 0 else (idxOf rest x).map (· + 1)

/-- The filter of handleDecrypt: keep a character when it equals ZW_ZERO
or ZW_ONE. -/
def isMarkerBit (c : Nat) : Bool := c == ZW_ZERO || c == ZW_ONE

/-- The marker-to-bit map of handleDecrypt: the ternary char equals
ZW_ZERO, then the zero bit, else the one bit. -/
def markBit (c : Nat) : Bool := if c = ZW_ZERO then false else true

/-- The sentinel scan of handleDecrypt: first ZW_START and first ZW_END
positions; absent sentinels or an end not strictly after the start
report NotFound; the characters strictly between them that equal
ZW_ZERO or ZW_ONE become the bits; no qualifying character reports
EmptyPayload. -/
def locateAndExtract (inputText : List Nat) : StegoOut (List Bool) :=
  match idxOf inputText ZW_START, idxOf inputText ZW_END with
  | some startIdx, some endIdx =>
    if endIdx ≤ startIdx then .err .NotFound
    else
      let zwContent := (inputText.drop (startIdx + 1)).take (endIdx - (startIdx + 1))
      let binary := (zwContent.filter isMarkerBit).map markBit
      if binary.isEmpty then .err .EmptyPayload else .ok binary
  | _, _ => .err .NotFound

/-- The tail of handleDecrypt: decode the bits back to the envelope,
open it with the PIN, and treat a failed or empty recovery as the one
undifferentiated WrongKeyOrCorrupt failure. -/
def decryptBits (binary : List Bool) (pin : List Nat) : StegoOut (List Nat) :=
  match CryptoJS.AES.decrypt (binaryToText binary) pin with
  | none => .err .WrongKeyOrCorrupt
  | some originalText =>
    if originalText.isEmpty then .err .WrongKeyOrCorrupt else .ok originalText

/-- handleDecrypt of App.tsx, primary profile. -/
def handleDecrypt (inputText decryptPin : List Nat) : StegoOut (List Nat) :=
  if inputText.isEmpty then .err .MissingInput
  else if !validPin decryptPin then .err .InvalidKey
  else match locateAndExtract inputText with
    | .err e => .err e
    | .ok binary => decryptBits binary decryptPin

/-- The bit-to-marker map of the legacy append profile of part_000. -/
def markerRunA (bits : List Bool) : List Nat :=
  bits.map fun b => if b then ZW_ONE_A else ZW_ZERO_A

/-- The append splice of part_000: coverText plus hiddenChars. -/
def spliceA (cover run : List Nat) : List Nat := cover ++ run

/-- Membership in the marker alphabet of the legacy append profile. -/
def isMarkerA (c : Nat) : Bool := c == ZW_ZERO_A || c == ZW_ONE_A

/-- Removing the legacy marker alphabet from a text. -/
def stripA (t : List Nat) : List Nat := t.filter fun c => !isMarkerA c

/-- Membership in the marker alphabet of the primary sentinel profile. -/
def isMarkerB (c : Nat) : Bool :=
  c == ZW_ZERO || c == ZW_ONE || c == ZW_START || c == ZW_END

/-- Removing the primary marker alphabet from a text. -/
def stripB (t : List Nat) : List Nat := t.filter fun c => !isMarkerB c

/-- Whether the code unit list contains a high surrogate immediately
followed by a low surrogate, that is, a code point above U+FFFF. -/
def hasSurrPair : List Nat → Bool
  | u :: l :: rest => (isHighSurrogate u && isLowSurrogate l) || hasSurrPair (l :: rest)
  | _ => false

/-! ## Bit-level lemmas -/

theorem bitsOf_length : ∀ (w n : Nat), (bitsOf w n).length = w
  | 0, _ => rfl
  | w + 1, n => by simp [bitsOf, bitsOf_length w n]

theorem bits16_length (n : Nat) : (bits16 n).length = 16 := bitsOf_length 16 n

theorem foldl_bitsOf : ∀ (w acc n : Nat),
    List.foldl (fun acc b => 2 * acc + cond b 1 0) acc (bitsOf w n)
      = acc * 2 ^ w + n % 2 ^ w
  | 0, acc, n => by simp [bitsOf, Nat.mod_one]
  | w + 1, acc, n => by
    simp only [bitsOf, List.foldl_cons]
    rw [foldl_bitsOf w _ n]
    have hc : (cond (decide (n / 2 ^ w % 2 = 1)) 1 0 : Nat) = n / 2 ^ w % 2 := by
      have h2 : n / 2 ^ w % 2 = 0 ∨ n / 2 ^ w % 2 = 1 := by omega
      rcases h2 with h | h <;> simp [h]
    rw [hc, pow_succ, Nat.mod_mul]
    ring

theorem bitsToNat_bits16 (n : Nat) (h : n < 65536) : bitsToNat (bits16 n) = n := by
  have := foldl_bitsOf 16 0 n
  simp only [bitsToNat, bits16, this]
  norm_num
  omega

theorem binaryToTextGo_congr : ∀ (f g : Nat) (bs : List Bool),
    bs.length ≤ f → bs.length ≤ g → binaryToTextGo f bs = binaryToTextGo g bs
  | 0, g, bs, hf, _ => by
    have hbs : bs = [] := List.length_eq_zero.mp (by omega)
    subst hbs
    cases g <;> simp [binaryToTextGo]
  | f + 1, g, bs, hf, hg => by
    cases g with
    | zero =>
      have hbs : bs = [] := List.length_eq_zero.mp (by omega)
      subst hbs
      simp [binaryToTextGo]
    | succ g =>
      simp only [binaryToTextGo]
      by_cases h : bs.length < 16
      · simp [h]
      · rw [if_neg h, if_neg h]
        congr 1
        exact binaryToTextGo_congr f g (bs.drop 16)
          (by simp only [List.length_drop]; omega)
          (by simp only [List.length_drop]; omega)

theorem binaryToText_cons16 (bs : List Bool) (h : 16 ≤ bs.length) :
    binaryToText bs = bitsToNat (bs.take 16) % 65536 :: binaryToText (bs.drop 16) := by
  unfold binaryToText
  obtain ⟨m, hm⟩ : ∃ m, bs.length = m + 1 := ⟨bs.length - 1, by omega⟩
  rw [hm]
  simp only [binaryToTextGo]
  rw [if_neg (by omega)]
  congr 1
  exact binaryToTextGo_congr m (bs.drop 16).length (bs.drop 16)
    (by simp only [List.length_drop]; omega) (le_refl _)

theorem binaryToText_small (bs : List Bool) (h : bs.length < 16) :
    binaryToText bs = [] := by
  unfold binaryToText
  cases hl : bs.length with
  | zero => simp [binaryToTextGo]
  | succ m =>
    simp only [binaryToTextGo]
    rw [if_pos (by omega)]

theorem decode_flatMap : ∀ (t : List Nat), (∀ u ∈ t, u < 65536) →
    binaryToText (t.flatMap bits16) = t
  | [], _ => by simp [binaryToText, binaryToTextGo]
  | u :: t, h => by
    have hu : u < 65536 := h u (by simp)
    have ht : ∀ v ∈ t, v < 65536 := fun v hv => h v (by simp [hv])
    rw [List.flatMap_cons,
      binaryToText_cons16 _ (by simp [List.length_append, bits16_length]),
      List.take_left' (bits16_length u), List.drop_left' (bits16_length u),
      bitsToNat_bits16 u hu, Nat.mod_eq_of_lt hu, decode_flatMap t ht]

theorem hasSurrPair_eq_false : ∀ (t : List Nat),
    (∀ u ∈ t, isHighSurrogate u = false) → hasSurrPair t = false
  | [], _ => rfl
  | [_], _ => rfl
  | u :: l :: rest, h => by
    simp only [hasSurrPair]
    rw [h u (by simp),
      hasSurrPair_eq_false (l :: rest) (fun v hv => h v (by simp at hv ⊢; tauto))]
    simp

theorem iterFirsts_eq_self : ∀ (t : List Nat), hasSurrPair t = false → iterFirsts t = t
  | [], _ => rfl
  | [_], _ => rfl
  | u :: l :: rest, h => by
    simp only [hasSurrPair, Bool.or_eq_false_iff] at h
    simp only [iterFirsts, h.1, Bool.false_eq_true, if_false]
    rw [iterFirsts_eq_self (l :: rest) h.2]

theorem textToBinary_eq_flatMap (t : List Nat)
    (h : ∀ u ∈ t, isHighSurrogate u = false) :
    textToBinary t = t.flatMap bits16 := by
  unfold textToBinary
  rw [iterFirsts_eq_self t (hasSurrPair_eq_false t h)]

/-! ## Cipher model lemmas -/

theorem validPin_shape (pin : List Nat) (h : validPin pin = true) :
    ∃ a b c d, pin = [a, b, c, d] ∧ (48 ≤ a ∧ a ≤ 57) ∧ (48 ≤ b ∧ b ≤ 57)
      ∧ (48 ≤ c ∧ c ≤ 57) ∧ (48 ≤ d ∧ d ≤ 57) := by
  simp only [validPin, Bool.and_eq_true, beq_iff_eq, List.all_eq_true,
    decide_eq_true_eq] at h
  obtain ⟨hlen, hall⟩ := h
  rcases pin with _ | ⟨a, _ | ⟨b, _ | ⟨c, _ | ⟨d, _ | ⟨e, pt⟩⟩⟩⟩⟩ <;>
    simp only [List.length_nil, List.length_cons] at hlen <;> try omega
  refine ⟨a, b, c, d, rfl, ?_, ?_, ?_, ?_⟩ <;>
    [exact hall a (by simp); exact hall b (by simp); exact hall c (by simp);
     exact hall d (by simp)]

theorem pinVal_lt (pin : List Nat) (h : validPin pin = true) : pinVal pin < 10000 := by
  obtain ⟨a, b, c, d, rfl, ha, hb, hc, hd⟩ := validPin_shape pin h
  simp only [pinVal, List.foldl_cons, List.foldl_nil]
  omega

theorem pinVal_inj (p q : List Nat) (hp : validPin p = true) (hq : validPin q = true)
    (h : pinVal p = pinVal q) : p = q := by
  obtain ⟨a, b, c, d, rfl, ha, hb, hc, hd⟩ := validPin_shape p hp
  obtain ⟨e, f, g, k, rfl, he, hf, hg, hk⟩ := validPin_shape q hq
  simp only [pinVal, List.foldl_cons, List.foldl_nil] at h
  have : a = e ∧ b = f ∧ c = g ∧ d = k := by omega
  simp [this.1, this.2.1, this.2.2.1, this.2.2.2]

theorem toHex4_mem (v : Nat) : ∀ u ∈ toHex4 v, 48 ≤ u ∧ u < 64 := by
  simp only [toHex4, List.mem_cons, List.mem_singleton]
  intro u hu
  rcases hu with h | h | h | h | h <;> first | omega | simp at h

theorem parse4_toHex4 (v : Nat) (rest : List Nat) (hv : v < 65536) :
    parse4 (toHex4 v ++ rest) = some (v, rest) := by
  simp only [toHex4, List.cons_append, List.nil_append, parse4]
  rw [if_pos (by simp [hexOk]; omega)]
  congr 2
  omega

theorem decShift_enc (s u : Nat) (hu : u < 65536) :
    decShift s ((u + s) % 65536) = u := by
  simp only [decShift]
  omega

theorem parseBody_cons (k i v : Nat) (rest : List Nat) (hv : v < 65536) :
    parseBody k i (toHex4 v ++ rest)
      = (parseBody k (i + 1) rest).map (decShift (k + i) v :: ·) := by
  simp only [toHex4, List.cons_append, List.nil_append, parseBody]
  rw [if_pos (by simp [hexOk]; omega)]
  have hval : (48 + v / 4096 % 16 - 48) * 4096 + (48 + v / 256 % 16 - 48) * 256
      + (48 + v / 16 % 16 - 48) * 16 + (48 + v % 16 - 48) = v := by omega
  rw [hval]
  rfl

theorem parseBody_sealBody (k : Nat) : ∀ (i : Nat) (us : List Nat),
    (∀ u ∈ us, u < 65536) → parseBody k i (sealBody k i us) = some us
  | _, [], _ => rfl
  | i, u :: us, h => by
    have hu : u < 65536 := h u (by simp)
    have hus : ∀ v ∈ us, v < 65536 := fun v hv => h v (by simp [hv])
    rw [sealBody, parseBody_cons k i _ _ (Nat.mod_lt _ (by norm_num)),
      parseBody_sealBody k (i + 1) us hus, Option.map_some']
    rw [decShift_enc (k + i) u hu]

theorem encrypt_mem (s pin : List Nat) :
    ∀ u ∈ CryptoJS.AES.encrypt s pin, 48 ≤ u ∧ u < 64 := by
  have hbody : ∀ (i : Nat) (us : List Nat), ∀ u ∈ sealBody (pinVal pin) i us,
      48 ≤ u ∧ u < 64 := by
    intro i us
    induction us generalizing i with
    | nil => simp [sealBody]
    | cons v vs ih =>
      intro u hu
      rw [sealBody] at hu
      rcases List.mem_append.mp hu with h | h
      · exact toHex4_mem _ u h
      · exact ih (i + 1) u h
  intro u hu
  rcases List.mem_append.mp hu with h | h
  · exact toHex4_mem _ u h
  · exact hbody 0 s u h

theorem encrypt_ne_nil (s pin : List Nat) : CryptoJS.AES.encrypt s pin ≠ [] := by
  simp [CryptoJS.AES.encrypt, toHex4]

theorem decrypt_encrypt (s pin : List Nat) (hs : ∀ u ∈ s, u < 65536)
    (hp : validPin pin = true) :
    CryptoJS.AES.decrypt (CryptoJS.AES.encrypt s pin) pin = some s := by
  unfold CryptoJS.AES.decrypt CryptoJS.AES.encrypt
  rw [parse4_toHex4 _ _ (by have := pinVal_lt pin hp; omega)]
  show (if pinVal pin = pinVal pin then
    parseBody (pinVal pin) 0 (sealBody (pinVal pin) 0 s) else none) = some s
  rw [if_pos rfl, parseBody_sealBody (pinVal pin) 0 s hs]

theorem decrypt_encrypt_ne (s p q : List Nat) (hp : validPin p = true)
    (hq : validPin q = true) (hne : p ≠ q) :
    CryptoJS.AES.decrypt (CryptoJS.AES.encrypt s p) q = none := by
  unfold CryptoJS.AES.decrypt CryptoJS.AES.encrypt
  rw [parse4_toHex4 _ _ (by have := pinVal_lt p hp; omega)]
  show (if pinVal p = pinVal q then
    parseBody (pinVal q) 0 (sealBody (pinVal p) 0 s) else none) = none
  rw [if_neg fun h => hne (pinVal_inj p q hp hq h)]

/-! ## Extraction lemmas -/

theorem idxOf_append : ∀ (l : List Nat) (e : Nat) (rest : List Nat),
    (∀ x ∈ l, x ≠ e) → idxOf (l ++ e :: rest) e = some l.length
  | [], e, rest, _ => by simp [idxOf]
  | c :: l, e, rest, h => by
    have hc : c ≠ e := h c (by simp)
    simp only [List.cons_append, idxOf, List.append_eq]
    rw [if_neg hc, idxOf_append l e rest (fun x hx => h x (by simp [hx])),
      Option.map_some']
    simp [List.length_cons]

theorem bitChar_mem (binary : List Bool) :
    ∀ x ∈ binary.map bitChar, x = ZW_ZERO ∨ x = ZW_ONE := by
  intro x hx
  obtain ⟨b, _, rfl⟩ := List.mem_map.mp hx
  cases b <;> simp [bitChar]

theorem filter_map_bitChar (binary : List Bool) :
    ((binary.map bitChar).filter isMarkerBit).map markBit = binary := by
  have h1 : (binary.map bitChar).filter isMarkerBit = binary.map bitChar :=
    List.filter_eq_self.mpr fun x hx => by
      rcases bitChar_mem binary x hx with h | h <;> subst h <;> decide
  rw [h1, List.map_map]
  have h2 : markBit ∘ bitChar = id := by
    funext b
    cases b <;> decide
  rw [h2, List.map_id]

theorem splice_markerRun_eq (c : Nat) (ct : List Nat) (binary : List Bool) :
    splice (c :: ct) (markerRun binary)
      = (c :: ZW_START :: binary.map bitChar) ++ (ZW_END :: ct) := by
  simp [splice, markerRun, List.append_assoc]

theorem locateAndExtract_splice (c : Nat) (ct : List Nat) (binary : List Bool)
    (hc : c ≠ ZW_END) (hb : binary ≠ []) :
    locateAndExtract (splice (c :: ct) (markerRun binary)) = .ok binary := by
  have hend : idxOf (splice (c :: ct) (markerRun binary)) ZW_END
      = some ((binary.map bitChar).length + 2) := by
    rw [splice_markerRun_eq]
    have hmem : ∀ x ∈ c :: ZW_START :: binary.map bitChar, x ≠ ZW_END := by
      intro x hx
      rcases List.mem_cons.mp hx with rfl | hx
      · exact hc
      rcases List.mem_cons.mp hx with rfl | hx
      · decide
      rcases bitChar_mem binary x hx with rfl | rfl <;> decide
    rw [idxOf_append _ ZW_END ct hmem]
    simp only [List.length_cons]
  have hbe : binary.isEmpty = false := by
    cases binary with
    | nil => exact absurd rfl hb
    | cons b bs => rfl
  by_cases hcs : c = ZW_START
  · have hstart : idxOf (splice (c :: ct) (markerRun binary)) ZW_START = some 0 := by
      rw [splice_markerRun_eq]
      simp [idxOf, hcs]
    simp only [locateAndExtract, hstart, hend]
    rw [if_neg (by omega)]
    have hcontent : ((splice (c :: ct) (markerRun binary)).drop (0 + 1)).take
        ((binary.map bitChar).length + 2 - (0 + 1)) = ZW_START :: binary.map bitChar := by
      rw [splice_markerRun_eq]
      simp only [List.cons_append, List.drop_succ_cons, List.drop_zero]
      have h2 : (binary.map bitChar).length + 2 - (0 + 1)
          = (ZW_START :: binary.map bitChar).length := by
        simp only [List.length_cons]
        omega
      rw [h2, ← List.cons_append, List.take_left]
    simp only [hcontent]
    have hfil : ((ZW_START :: binary.map bitChar).filter isMarkerBit).map markBit
        = binary := by
      rw [List.filter_cons]
      have : isMarkerBit ZW_START = false := by decide
      simp only [this, Bool.false_eq_true, if_false]
      exact filter_map_bitChar binary
    simp [hfil, hbe]
  · have hstart : idxOf (splice (c :: ct) (markerRun binary)) ZW_START = some 1 := by
      rw [splice_markerRun_eq]
      simp [idxOf, hcs]
    simp only [locateAndExtract, hstart, hend]
    rw [if_neg (by omega)]
    have hcontent : ((splice (c :: ct) (markerRun binary)).drop (1 + 1)).take
        ((binary.map bitChar).length + 2 - (1 + 1)) = binary.map bitChar := by
      rw [splice_markerRun_eq]
      simp only [List.cons_append, List.drop_succ_cons, List.drop_zero]
      have h2 : (binary.map bitChar).length + 2 - (1 + 1)
          = (binary.map bitChar).length := by omega
      rw [h2, List.take_left]
    simp only [hcontent]
    simp [filter_map_bitChar binary, hbe]

/-! ## Handler chain lemmas -/

theorem isHighSurrogate_eq_false (u : Nat) (h : u < 55296) :
    isHighSurrogate u = false := by
  simp [isHighSurrogate]
  omega

theorem length_flatMap_bits16 : ∀ (t : List Nat),
    (t.flatMap bits16).length = 16 * t.length
  | [] => rfl
  | u :: t => by
    simp only [List.flatMap_cons, List.length_append, bits16_length,
      length_flatMap_bits16 t, List.length_cons]
    ring

theorem handleEncrypt_ok (secret cover pin : List Nat) (hs : secret ≠ [])
    (hc : cover ≠ []) (hp : validPin pin = true) :
    handleEncrypt secret cover pin
      = .ok (splice cover (markerRun (textToBinary
          (CryptoJS.AES.encrypt secret pin)))) := by
  have hs2 : secret.isEmpty = false := by
    cases secret with
    | nil => exact absurd rfl hs
    | cons a l => rfl
  have hc2 : cover.isEmpty = false := by
    cases cover with
    | nil => exact absurd rfl hc
    | cons a l => rfl
  simp [handleEncrypt, hs2, hc2, hp]

theorem textToBinary_ne_nil (env : List Nat) (h : env ≠ [])
    (hw : ∀ u ∈ env, u < 55296) : textToBinary env ≠ [] := by
  rw [textToBinary_eq_flatMap env
    (fun u hu => isHighSurrogate_eq_false u (hw u hu))]
  intro hcontra
  have hlen := congrArg List.length hcontra
  rw [length_flatMap_bits16 env] at hlen
  cases env with
  | nil => exact h rfl
  | cons a l => simp at hlen

theorem handleDecrypt_of_env (env q : List Nat) (c : Nat) (ct : List Nat)
    (henv : env ≠ []) (hw : ∀ u ∈ env, u < 55296)
    (hq : validPin q = true) (hc : c ≠ ZW_END) :
    handleDecrypt (splice (c :: ct) (markerRun (textToBinary env))) q
      = match CryptoJS.AES.decrypt env q with
        | none => .err .WrongKeyOrCorrupt
        | some t => if t.isEmpty then .err .WrongKeyOrCorrupt else .ok t := by
  have hb := textToBinary_ne_nil env henv hw
  have hle := locateAndExtract_splice c ct (textToBinary env) hc hb
  have hne : (splice (c :: ct) (markerRun (textToBinary env))).isEmpty = false := by
    simp [splice]
  rw [handleDecrypt, if_neg (by simp [hne]), if_neg (by simp [hq]), hle]
  show decryptBits (textToBinary env) q = _
  rw [decryptBits, textToBinary_eq_flatMap env
    (fun u hu => isHighSurrogate_eq_false u (hw u hu)),
    decode_flatMap env (fun u hu => by have := hw u hu; omega)]

theorem isEmpty_eq_false_of_ne {α : Type} (l : List α) (h : l ≠ []) :
    l.isEmpty = false := by
  cases l with
  | nil => exact absurd rfl h
  | cons a t => rfl

theorem binaryToText_append_small : ∀ (n : Nat) (bs extra : List Bool),
    bs.length = n → bs.length % 16 = 0 → extra.length < 16 →
    binaryToText (bs ++ extra) = binaryToText bs := by
  intro n
  induction n using Nat.strong_induction_on with
  | _ n ih =>
    intro bs extra hn hmod hex
    by_cases h0 : bs.length < 16
    · have hbs : bs = [] := List.length_eq_zero.mp (by omega)
      subst hbs
      rw [List.nil_append, binaryToText_small extra hex,
        binaryToText_small [] (by simp)]
    · push_neg at h0
      rw [binaryToText_cons16 (bs ++ extra) (by rw [List.length_append]; omega),
        binaryToText_cons16 bs h0,
        List.take_append_of_le_length h0,
        List.drop_append_of_le_length h0]
      congr 1
      exact ih (bs.drop 16).length (by rw [List.length_drop]; omega)
        (bs.drop 16) extra rfl (by rw [List.length_drop]; omega) hex

theorem markerRunA_mem (bits : List Bool) :
    ∀ x ∈ markerRunA bits, isMarkerA x = true := by
  intro x hx
  obtain ⟨b, _, rfl⟩ := List.mem_map.mp hx
  cases b <;> decide

theorem markerRun_mem (bits : List Bool) :
    ∀ x ∈ markerRun bits, isMarkerB x = true := by
  intro x hx
  rcases List.mem_cons.mp hx with rfl | hx
  · decide
  rcases List.mem_append.mp hx with hx | hx
  · obtain ⟨b, _, rfl⟩ := List.mem_map.mp hx
    cases b <;> decide
  · rcases List.mem_singleton.mp hx with rfl
    decide

/-! ## Claim theorems -/

/-- C1, counterexample: the round trip fails for the empty string.
handleEncrypt rejects an empty secret as MissingInput, and even an
envelope sealed directly from the empty string is reported as
WrongKeyOrCorrupt when opened with the correct PIN. -/
theorem C1_empty_string_fails :
    handleEncrypt [] [65] [49, 50, 51, 52] = .err .MissingInput
    ∧ handleDecrypt (splice [65] (markerRun (textToBinary
        (CryptoJS.AES.encrypt [] [49, 50, 51, 52])))) [49, 50, 51, 52]
      = .err .WrongKeyOrCorrupt := by
  constructor
  · decide
  · decide

/-- C1, amended: for every non-empty string s and every valid 4-digit
PIN p, with a non-empty cover whose first code unit is not the END-MARK,
decrypting the result of encrypting s with p using the same p yields s,
as implemented by handleEncrypt followed by handleDecrypt. -/
theorem C1_roundtrip_amended (secret cover pin : List Nat) (hs : secret ≠ [])
    (hwf : ∀ u ∈ secret, u < 65536) (hp : validPin pin = true)
    (hcov : cover ≠ []) (hch : cover.headD 0 ≠ ZW_END) :
    ∃ carrier, handleEncrypt secret cover pin = .ok carrier
      ∧ handleDecrypt carrier pin = .ok secret := by
  obtain ⟨c, ct, rfl⟩ : ∃ c ct, cover = c :: ct := by
    cases cover with
    | nil => exact absurd rfl hcov
    | cons c ct => exact ⟨c, ct, rfl⟩
  have hch2 : c ≠ ZW_END := by simpa using hch
  refine ⟨_, handleEncrypt_ok secret (c :: ct) pin hs (by simp) hp, ?_⟩
  rw [handleDecrypt_of_env (CryptoJS.AES.encrypt secret pin) pin c ct
    (encrypt_ne_nil secret pin)
    (fun u hu => by have := encrypt_mem secret pin u hu; omega) hp hch2,
    decrypt_encrypt secret pin hwf hp]
  have hse : secret.isEmpty = false := isEmpty_eq_false_of_ne secret hs
  simp [hse]

/-- C1, witness: the round trip at secret hi, PIN 1234, cover A. -/
theorem C1_roundtrip_witness :
    ∃ carrier, handleEncrypt [104, 105] [65] [49, 50, 51, 52] = .ok carrier
      ∧ handleDecrypt carrier [49, 50, 51, 52] = .ok [104, 105] :=
  C1_roundtrip_amended [104, 105] [65] [49, 50, 51, 52]
    (by decide) (by decide) (by decide) (by decide) (by decide)

/-- C2, counterexample: a surrogate pair does not round trip through the
bit codec; the low surrogate of U+1D11E is lost by textToBinary. -/
theorem C2_surrogate_pair_fails :
    binaryToText (textToBinary [55348, 56606]) ≠ [55348, 56606] := by decide

/-- C2, amended: the bit codec round trip holds for every code unit list
that contains no surrogate pair, that is, no code point above U+FFFF. -/
theorem C2_bit_codec_roundtrip_amended (t : List Nat)
    (hwf : ∀ u ∈ t, u < 65536) (hns : hasSurrPair t = false) :
    binaryToText (textToBinary t) = t := by
  show binaryToText ((iterFirsts t).flatMap bits16) = t
  rw [iterFirsts_eq_self t hns, decode_flatMap t hwf]

/-- C2, witness: round trip on a text with a lone high surrogate. -/
theorem C2_bit_codec_witness :
    binaryToText (textToBinary [104, 55296, 105]) = [104, 55296, 105] :=
  C2_bit_codec_roundtrip_amended [104, 55296, 105] (by decide) (by decide)

/-- C3, counterexample: encoding is not per UTF-16 code unit; the
surrogate pair for U+1D11E yields 16 bits, not two 16-bit groups. -/
theorem C3_per_code_unit_fails :
    (textToBinary [55348, 56606]).length ≠ 16 * [55348, 56606].length := by decide

/-- C3, amended: textToBinary emits exactly 16 bits most significant bit
first for every element the code-point iteration delivers, using only
the first code unit of each element: on texts free of high surrogates it
is 16 bits per code unit, lossless for every value 0 to 65535, but a
surrogate pair contributes a single 16-bit group, its high surrogate. -/
theorem C3_encoding_amended :
    (∀ t : List Nat, (∀ u ∈ t, isHighSurrogate u = false) →
      textToBinary t = t.flatMap bits16 ∧ (textToBinary t).length = 16 * t.length)
    ∧ (∀ h l : Nat, isHighSurrogate h = true → isLowSurrogate l = true →
      textToBinary [h, l] = bits16 h)
    ∧ (∀ u : Nat, u < 65536 →
      (bits16 u).length = 16 ∧ bitsToNat (bits16 u) = u) := by
  refine ⟨fun t ht => ?_, fun h l hh hl => ?_,
    fun u hu => ⟨bits16_length u, bitsToNat_bits16 u hu⟩⟩
  · have he := textToBinary_eq_flatMap t ht
    exact ⟨he, by rw [he, length_flatMap_bits16]⟩
  · show (iterFirsts [h, l]).flatMap bits16 = bits16 h
    have h1 : iterFirsts [h, l] = [h] := by simp [iterFirsts, hh, hl]
    rw [h1]
    simp

/-- C4: the sentinel scan contract of handleDecrypt.  A missing
START-MARK or END-MARK, or an END-MARK not strictly after the
START-MARK, reports NotFound; otherwise exactly the ZW_ZERO and ZW_ONE
characters strictly between the two sentinel positions are collected as
bits, and zero qualifying characters report EmptyPayload, a failure
distinct from NotFound. -/
theorem C4_sentinel_scan (input : List Nat) :
    ((idxOf input ZW_START = none ∨ idxOf input ZW_END = none ∨
      (∃ si ei, idxOf input ZW_START = some si ∧ idxOf input ZW_END = some ei
        ∧ ei ≤ si)) →
      locateAndExtract input = .err .NotFound)
    ∧ (∀ si ei, idxOf input ZW_START = some si → idxOf input ZW_END = some ei →
        si < ei →
        ((((input.drop (si + 1)).take (ei - (si + 1))).filter isMarkerBit).map markBit
            = [] →
          locateAndExtract input = .err .EmptyPayload)
        ∧ ((((input.drop (si + 1)).take (ei - (si + 1))).filter isMarkerBit).map markBit
            ≠ [] →
          locateAndExtract input
            = .ok ((((input.drop (si + 1)).take (ei - (si + 1))).filter
                isMarkerBit).map markBit)))
    ∧ (StegoError.EmptyPayload ≠ StegoError.NotFound) := by
  refine ⟨?_, ?_, by decide⟩
  · intro h
    rcases h with h1 | h1 | ⟨si, ei, h1, h2, hle⟩
    · cases h2 : idxOf input ZW_END <;> simp [locateAndExtract, h1, h2]
    · cases h2 : idxOf input ZW_START <;> simp [locateAndExtract, h1, h2]
    · simp only [locateAndExtract, h1, h2]
      rw [if_pos hle]
  · intro si ei h1 h2 hlt
    have hred : locateAndExtract input
        = if ((((input.drop (si + 1)).take (ei - (si + 1))).filter
              isMarkerBit).map markBit).isEmpty
          then .err .EmptyPayload
          else .ok ((((input.drop (si + 1)).take (ei - (si + 1))).filter
              isMarkerBit).map markBit) := by
      simp only [locateAndExtract, h1, h2]
      rw [if_neg (not_le.mpr hlt)]
    constructor
    · intro hb
      rw [hred, hb]
      rfl
    · intro hb
      rw [hred, isEmpty_eq_false_of_ne _ hb]
      rfl

/-- C5: wrong-key detection.  Opening an envelope with a valid PIN
different from the one it was sealed with is positively detected: the
cipher model returns none and handleDecrypt reports the single
undifferentiated WrongKeyOrCorrupt failure, for every message and every
carrier built by the encode path. -/
theorem C5_wrong_key_detection (s p q : List Nat) (c : Nat) (ct : List Nat)
    (hp : validPin p = true) (hq : validPin q = true) (hne : p ≠ q)
    (hc : c ≠ ZW_END) :
    CryptoJS.AES.decrypt (CryptoJS.AES.encrypt s p) q = none
    ∧ handleDecrypt (splice (c :: ct) (markerRun (textToBinary
        (CryptoJS.AES.encrypt s p)))) q = .err .WrongKeyOrCorrupt := by
  have h1 := decrypt_encrypt_ne s p q hp hq hne
  refine ⟨h1, ?_⟩
  rw [handleDecrypt_of_env (CryptoJS.AES.encrypt s p) q c ct
    (encrypt_ne_nil s p)
    (fun u hu => by have := encrypt_mem s p u hu; omega) hq hc, h1]

/-- C5, witness: sealing hi with PIN 1234 and opening with 4321. -/
theorem C5_wrong_key_witness :
    CryptoJS.AES.decrypt (CryptoJS.AES.encrypt [104, 105] [49, 50, 51, 52])
      [52, 51, 50, 49] = none
    ∧ handleDecrypt (splice (65 :: []) (markerRun (textToBinary
        (CryptoJS.AES.encrypt [104, 105] [49, 50, 51, 52])))) [52, 51, 50, 49]
      = .err .WrongKeyOrCorrupt :=
  C5_wrong_key_detection [104, 105] [49, 50, 51, 52] [52, 51, 50, 49] 65 []
    (by decide) (by decide) (by decide) (by decide)

/-- C6: the interleave splice.  A non-empty cover yields its first
character, then the marker run, then the rest of the cover; the empty
cover yields the marker run alone; and on cover A with the run START,
ZERO, ONE, END the carrier is exactly A followed by the run, from which
extraction recovers the bits 01. -/
theorem C6_interleave_splice :
    (∀ run : List Nat, splice [] run = run)
    ∧ (∀ (c : Nat) (ct run : List Nat), splice (c :: ct) run = c :: (run ++ ct))
    ∧ splice [65] (markerRun [false, true])
        = [65, ZW_START, ZW_ZERO, ZW_ONE, ZW_END]
    ∧ locateAndExtract [65, ZW_START, ZW_ZERO, ZW_ONE, ZW_END]
        = .ok [false, true] :=
  ⟨fun _ => rfl, fun _ _ _ => rfl, by decide, by decide⟩

/-- C7: truncated-unit behavior of binaryToText.  Bits are grouped into
16-bit units most significant bit first; a trailing group shorter than
16 bits is silently discarded; in particular a 17-bit stream decodes
deterministically to exactly one code unit, dropping the last bit. -/
theorem C7_truncated_unit :
    (∀ bs extra : List Bool, bs.length % 16 = 0 → extra.length < 16 →
      binaryToText (bs ++ extra) = binaryToText bs)
    ∧ (∀ bs : List Bool, bs.length = 17 →
      binaryToText bs = [bitsToNat (bs.take 16) % 65536]
      ∧ (binaryToText bs).length = 1) := by
  constructor
  · intro bs extra hmod hex
    exact binaryToText_append_small bs.length bs extra rfl hmod hex
  · intro bs h17
    have hc : binaryToText bs
        = bitsToNat (bs.take 16) % 65536 :: binaryToText (bs.drop 16) :=
      binaryToText_cons16 bs (by omega)
    rw [hc, binaryToText_small (bs.drop 16) (by rw [List.length_drop]; omega)]
    exact ⟨rfl, rfl⟩

/-- C8, counterexample: a cover consisting of a marker-alphabet
character is not recovered by stripping the carrier, in either splice
strategy. -/
theorem C8_marker_cover_fails :
    stripB (splice [8204] (markerRun (textToBinary [65]))) ≠ [8204]
    ∧ stripA (spliceA [8203] (markerRunA (textToBinary [65]))) ≠ [8203] := by
  constructor
  · decide
  · decide

/-- C8, amended: for every cover free of marker-alphabet characters and
every payload text, removing the marker alphabet from the carrier
produced by splicing the encoded run into the cover yields exactly the
cover, for both the append and the interleave-after-first-char
strategies. -/
theorem C8_marker_transparency_amended (cover text : List Nat)
    (h : ∀ x ∈ cover, isMarkerA x = false ∧ isMarkerB x = false) :
    stripA (spliceA cover (markerRunA (textToBinary text))) = cover
    ∧ stripB (splice cover (markerRun (textToBinary text))) = cover := by
  have hA : (markerRunA (textToBinary text)).filter (fun c => !isMarkerA c)
      = [] := by
    rw [List.filter_eq_nil_iff]
    intro x hx
    simp [markerRunA_mem _ x hx]
  have hB : (markerRun (textToBinary text)).filter (fun c => !isMarkerB c)
      = [] := by
    rw [List.filter_eq_nil_iff]
    intro x hx
    simp [markerRun_mem _ x hx]
  constructor
  · unfold stripA spliceA
    rw [List.filter_append, hA, List.append_nil]
    exact List.filter_eq_self.mpr fun x hx => by simp [(h x hx).1]
  · cases cover with
    | nil =>
      unfold stripB
      exact hB
    | cons c ct =>
      show stripB (c :: (markerRun (textToBinary text) ++ ct)) = c :: ct
      unfold stripB
      rw [List.filter_cons]
      have hc : (!isMarkerB c) = true := by simp [(h c (by simp)).2]
      simp only [hc, if_true]
      rw [List.filter_append, hB, List.nil_append]
      congr 1
      exact List.filter_eq_self.mpr fun x hx => by
        simp [(h x (by simp [hx])).2]

/-- C9: purity and determinism.  Every codec and cipher operation of the
embedding is a function of its arguments alone: two invocations with
identical inputs produce identical outputs; in particular sealing the
same plaintext with the same PIN twice yields the same envelope. -/
theorem C9_determinism :
    (∀ s p : List Nat, CryptoJS.AES.encrypt s p = CryptoJS.AES.encrypt s p)
    ∧ (∀ s c p : List Nat, handleEncrypt s c p = handleEncrypt s c p)
    ∧ (∀ i p : List Nat, handleDecrypt i p = handleDecrypt i p)
    ∧ (∀ t : List Nat, textToBinary t = textToBinary t)
    ∧ (∀ bs : List Bool, binaryToText bs = binaryToText bs)
    ∧ (∀ cover run : List Nat, splice cover run = splice cover run)
    ∧ (∀ input : List Nat, locateAndExtract input = locateAndExtract input) :=
  ⟨fun _ _ => rfl, fun _ _ _ => rfl, fun _ _ => rfl, fun _ => rfl,
    fun _ => rfl, fun _ _ => rfl, fun _ => rfl⟩

/-- C10: the primary-profile open never succeeds with an empty result:
every successful handleDecrypt returns a non-empty plaintext, and an
envelope sealed from the empty string with the correct PIN is reported
as WrongKeyOrCorrupt rather than opened to the empty string. -/
theorem C10_no_empty_success :
    (∀ input pin t : List Nat, handleDecrypt input pin = .ok t → t ≠ [])
    ∧ (∀ pin : List Nat, validPin pin = true →
      handleDecrypt (splice (65 :: []) (markerRun (textToBinary
        (CryptoJS.AES.encrypt [] pin)))) pin = .err .WrongKeyOrCorrupt) := by
  constructor
  · intro input pin t h
    unfold handleDecrypt at h
    by_cases h1 : input.isEmpty = true
    · rw [if_pos h1] at h
      simp at h
    rw [if_neg h1] at h
    by_cases h2 : (!validPin pin) = true
    · rw [if_pos h2] at h
      simp at h
    rw [if_neg h2] at h
    cases hle : locateAndExtract input with
    | err e =>
      rw [hle] at h
      simp at h
    | ok bits =>
      rw [hle] at h
      have h3 : decryptBits bits pin = StegoOut.ok t := h
      clear h
      rename' h3 => h
      unfold decryptBits at h
      cases hd : CryptoJS.AES.decrypt (binaryToText bits) pin with
      | none =>
        rw [hd] at h
        simp at h
      | some t0 =>
        rw [hd] at h
        have h4 : (if t0.isEmpty = true then StegoOut.err StegoError.WrongKeyOrCorrupt
            else StegoOut.ok t0) = StegoOut.ok t := h
        clear h
        rename' h4 => h
        by_cases ht0 : t0.isEmpty = true
        · rw [if_pos ht0] at h
          simp at h
        · rw [if_neg ht0] at h
          have ht : t0 = t := by
            injection h
          subst ht
          intro hnil
          subst hnil
          exact ht0 rfl
  · intro pin hp
    rw [handleDecrypt_of_env (CryptoJS.AES.encrypt [] pin) pin 65 []
      (encrypt_ne_nil [] pin)
      (fun u hu => by have := encrypt_mem [] pin u hu; omega) hp (by decide),
      decrypt_encrypt [] pin (by simp) hp]
    rfl

/-- C8, witness: marker transparency at cover T and payload A. -/
theorem C8_marker_transparency_witness :
    stripA (spliceA [84] (markerRunA (textToBinary [65]))) = [84]
    ∧ stripB (splice [84] (markerRun (textToBinary [65]))) = [84] :=
  C8_marker_transparency_amended [84] [65] (by decide)
